import Mathlib

/-!
Shallow embedding of the rail-network connectivity analyzer
(`src/Final_Project/src/main.rs`).

Graphs (`HashMap<String, Vec<String>>` in the source) are embedded as
association lists `List (String × List String)`; `HashMap` iteration order is
unspecified in the source, so the embedding fixes list order and treats
order-independence as an explicit property where a claim demands it.
The unbounded `while let` BFS loops are embedded with an explicit fuel
parameter; the fuel values chosen (`fuelFor`, `afuel`) are proved sufficient
for the loop to run to completion, so the embedded functions agree with the
source loops.  Fallible operations of the source (`distances[&current]`
indexing, `usize` subtraction underflow) are embedded in `Option`, `none`
standing for a panic.  The `f64` division at the end of `calculate_aspl` is
embedded by `f64div` over `ℚ`, with explicit `nan` / `inf` results for the
zero-denominator cases (`0.0/0.0` and `t/0.0` with `t > 0`).
-/

namespace RailNet

/-- One input record, as produced by ingestion: the fields `FRFRANODE`
(column 2), `TOFRANODE` (column 3) and `STCNTYFIPS` (column 6) that the core
reads from each row. -/
structure Record where
  from_node : String
  to_node : String
  county_fips : String

/-- An adjacency graph: entity id to neighbor list. -/
abbrev Graph := List (String × List String)

/-- Association-list lookup (embeds `HashMap::get`). -/
def lookupKV {β : Type} (a : String) : List (String × β) → Option β
  | [] => none
  | (k, v) :: m => if k = a then some v else lookupKV a m

/-- Neighbor list of `a` in `g` (empty when `a` is not a key). -/
def nbrs (g : Graph) (a : String) : List String :=
  (lookupKV a g).getD []

/-- Key list of a graph. -/
def keys (g : Graph) : List String :=
  g.map Prod.fst

/-- Embeds `map.entry(k).or_default().push(v)`. -/
def pushNbr (k v : String) : Graph → Graph
  | [] => [(k, [v])]
  | (a, l) :: g => if a = k then (a, l ++ [v]) :: g else (a, l) :: pushNbr k v g

/-- `build_node_adjacency`: for each record push `to_node` onto
`from_node`'s list and then `from_node` onto `to_node`'s list. -/
def build_node_adjacency (data : List Record) : Graph :=
  data.foldl (fun g r => pushNbr r.to_node r.from_node (pushNbr r.from_node r.to_node g)) []

/-- Embeds `HashMap::insert` (overwrite on existing key). -/
def insertKV (k v : String) : List (String × String) → List (String × String)
  | [] => [(k, v)]
  | (a, b) :: m => if a = k then (k, v) :: m else (a, b) :: insertKV k v m

/-- First loop of `build_county_adjacency`: node → county map, skipping
records whose county field is empty, last write winning. -/
def nodeToCounty (data : List Record) : List (String × String) :=
  data.foldl (fun m r => if r.county_fips = "" then m else insertKV r.from_node r.county_fips m) []

/-- Inner loop of `build_county_adjacency`: for each neighbor of a node with
county `c1`, push the neighbor's county onto `c1`'s list when distinct. -/
def projectEntry (n2c : List (String × String)) (c1 : String) (acc : Graph)
    (l : List String) : Graph :=
  l.foldl (fun a nbr =>
    match lookupKV nbr n2c with
    | none => a
    | some c2 => if c1 = c2 then a else pushNbr c1 c2 a) acc

/-- Second loop of `build_county_adjacency`, over the node adjacency entries. -/
def projectAll (n2c : List (String × String)) (na : Graph) : Graph :=
  na.foldl (fun acc p =>
    match lookupKV p.1 n2c with
    | none => acc
    | some c1 => projectEntry n2c c1 acc p.2) []

/-- Third loop of `build_county_adjacency`: `sort(); dedup()` on each value. -/
def normalizeG (g : Graph) : Graph :=
  g.map (fun p => (p.1, (List.insertionSort (fun a b : String => a ≤ b) p.2).dedup))

/-- `build_county_adjacency`. -/
def build_county_adjacency (data : List Record) (node_adjacency : Graph) : Graph :=
  normalizeG (projectAll (nodeToCounty data) node_adjacency)

/-- `remove_county`: drop the key and filter the id out of every value. -/
def remove_county (county : String) (adjacency_list : Graph) : Graph :=
  (adjacency_list.filter (fun p => ¬ p.1 = county)).map
    (fun p => (p.1, p.2.filter (fun n => ¬ n = county)))

/-- Every id occurring in `g`, as key or as neighbor. -/
def allNodesF (g : Graph) : Finset String :=
  g.foldr (fun p s => insert p.1 (p.2.toFinset ∪ s)) ∅

/-- Fuel sufficient for `bfsAux` to drain its queue (proved below). -/
def fuelFor (g : Graph) : Nat :=
  1 + g.length + 2 * (g.map (fun p => p.2.length)).sum

/-- The `while let Some(node) = queue.pop_front()` loop of
`bfs_component_size`.  Returns the size counter and the final visited set. -/
def bfsAux (g : Graph) : Nat → List String → List String → Nat → Nat × List String
  | 0, _, visited, size => (size, visited)
  | _ + 1, [], visited, size => (size, visited)
  | fuel + 1, node :: queue, visited, size =>
    if node ∈ visited then bfsAux g fuel queue visited size
    else
      bfsAux g fuel (queue ++ (nbrs g node).filter (fun x => ¬ x ∈ node :: visited))
        (node :: visited) (size + 1)

/-- `bfs_component_size`.  The source mutates `visited`; the embedding
returns the updated visited set alongside the size. -/
def bfs_component_size (start : String) (g : Graph) (visited : List String) :
    Nat × List String :=
  bfsAux g (fuelFor g) [start] visited 0

/-- The key loop of `largest_connected_component`, iterating a given key
order with the shared visited set. -/
def lccAux (g : Graph) : List String → List String → Nat → Nat
  | [], _, maxSize => maxSize
  | node :: ks, visited, maxSize =>
    if node ∈ visited then lccAux g ks visited maxSize
    else
      let r := bfs_component_size node g visited
      lccAux g ks r.2 (if r.1 > maxSize then r.1 else maxSize)

/-- `largest_connected_component`. -/
def largest_connected_component (g : Graph) : Nat :=
  lccAux g (keys g) [] 0

/-- `betweenness_centrality`: remove each entity, take the largest remaining
component, sort ascending by size (`sort_by` is stable; so is
`insertionSort`). -/
def betweenness_centrality (g : Graph) : List (String × Nat) :=
  List.insertionSort (fun a b => a.2 ≤ b.2)
    ((keys g).map (fun e => (e, largest_connected_component (remove_county e g))))

/-- The `for neighbor in neighbors` loop inside `calculate_aspl`'s BFS:
enqueue unvisited neighbors, mark them visited, record distance `d + 1`.
Returns (queue, visited, distances). -/
def enqNbrs (d : Nat) : List String → List String → List String → List (String × Nat) →
    List String × List String × List (String × Nat)
  | [], queue, visited, dist => (queue, visited, dist)
  | n :: ns, queue, visited, dist =>
    if n ∈ visited then enqNbrs d ns queue visited dist
    else enqNbrs d ns (queue ++ [n]) (n :: visited) ((n, d + 1) :: dist)

/-- Fuel sufficient for `asplBfs` to drain its queue (proved below). -/
def afuel (g : Graph) : Nat :=
  2 + (allNodesF g).card

/-- The `while let Some(current) = queue.pop_front()` loop of
`calculate_aspl`.  `none` models a panic: the `distances[&current]` index on
a missing key, or (unreachably, by the fuel-sufficiency proof) fuel running
out before the queue drains. -/
def asplBfs (g : Graph) : Nat → List String → List String → List (String × Nat) →
    Option (List (String × Nat))
  | 0, _, _, _ => none
  | _ + 1, [], _, dist => some dist
  | fuel + 1, current :: rest, visited, dist =>
    match lookupKV current dist with
    | none => none
    | some d =>
      let s := enqNbrs d (nbrs g current) rest visited dist
      asplBfs g fuel s.1 s.2.1 s.2.2

/-- One iteration of `calculate_aspl`'s outer loop: BFS from `start` with
`start` pre-visited at distance 0. -/
def aspl_bfs_from (g : Graph) (start : String) : Option (List (String × Nat)) :=
  asplBfs g (afuel g) [start] [start] [(start, 0)]

/-- `distances.values().sum()`. -/
def sumVals (l : List (String × Nat)) : Nat :=
  (l.map Prod.snd).sum

/-- Result of the `f64` division ending `calculate_aspl`: a number, or one
of the two non-finite values reachable from nonnegative integer operands. -/
inductive AsplResult : Type
  | nan : AsplResult
  | inf : AsplResult
  | val : ℚ → AsplResult
deriving DecidableEq

/-- `total as f64 / count as f64` on natural operands: `0.0/0.0` is NaN,
`t/0.0` with `t > 0` is `+inf`, otherwise the exact quotient. -/
def f64div (t c : Nat) : AsplResult :=
  if c = 0 then (if t = 0 then AsplResult.nan else AsplResult.inf)
  else AsplResult.val ((t : ℚ) / (c : ℚ))

/-- One iteration of `calculate_aspl`'s accumulation:
`total_length += distances.values().sum(); path_count += distances.len() - 1`.
`none` models a panic (propagated from the BFS, or the `usize` underflow
`distances.len() - 1` when the map were empty). -/
def asplStep (g : Graph) (acc : Option (Nat × Nat)) (e : String) : Option (Nat × Nat) :=
  match acc with
  | none => none
  | some (t, c) =>
    match aspl_bfs_from g e with
    | none => none
    | some dist =>
      if dist.length = 0 then none
      else some (t + sumVals dist, c + (dist.length - 1))

/-- The accumulated `(total_length, path_count)` of `calculate_aspl`. -/
def aspl_totals (g : Graph) : Option (Nat × Nat) :=
  (keys g).foldl (asplStep g) (some (0, 0))

/-- `calculate_aspl`. -/
def calculate_aspl (g : Graph) : Option AsplResult :=
  (aspl_totals g).map (fun p => f64div p.1 p.2)

/-- `calculate_aspl_with_removal`. -/
def calculate_aspl_with_removal (g : Graph) (county_to_remove : String) : Option AsplResult :=
  calculate_aspl (remove_county county_to_remove g)

/-- Multiset symmetry: each undirected edge appears with equal multiplicity
from both ends. -/
def CountSymm (g : Graph) : Prop :=
  ∀ a b : String, (nbrs g a).count b = (nbrs g b).count a

/-- Set symmetry: `b` appears in `a`'s neighbor collection iff `a` appears
in `b`'s (the spec's undirectedness invariant). -/
def SymmGraph (g : Graph) : Prop :=
  ∀ a b : String, a ∈ nbrs g b ↔ b ∈ nbrs g a

/-- Decidable sufficient criterion for `SymmGraph` on graphs with distinct
keys. -/
abbrev symmOn (g : Graph) : Prop :=
  ∀ p ∈ g, ∀ b ∈ p.2, p.1 ∈ nbrs g b

/-- Keys are pairwise distinct (always true of a `HashMap`). -/
abbrev NodupKeysP (g : Graph) : Prop :=
  (keys g).Nodup

/-- `V` is closed under the adjacency relation of `g`. -/
def Closed (g : Graph) (V : List String) : Prop :=
  ∀ a b : String, a ∈ V → b ∈ nbrs g a → b ∈ V

/-- Reachability along neighbor edges. -/
def Reach (g : Graph) : String → String → Prop :=
  Relation.ReflTransGen (fun x y => y ∈ nbrs g x)

/-- Reachability along a path all of whose vertices avoid `V`. -/
inductive ReachAvoid (g : Graph) (V : List String) : String → String → Prop
  | refl (a : String) (h : ¬ a ∈ V) : ReachAvoid g V a a
  | step (a b c : String) (h : ¬ a ∈ V) (hb : b ∈ nbrs g a) (hr : ReachAvoid g V b c) :
      ReachAvoid g V a c

/-- Maximum of a list of naturals. -/
def maxOf (l : List Nat) : Nat :=
  l.foldr max 0

/-- BFS component size from `e` with a fresh (empty) visited set. -/
def freshSize (g : Graph) (e : String) : Nat :=
  (bfs_component_size e g []).1

/-- The id occurs in the graph, as a key or inside a neighbor collection. -/
abbrev presentIn (c : String) (g : Graph) : Prop :=
  c ∈ keys g ∨ ∃ p ∈ g, c ∈ p.2

/-- Termination measure for `bfsAux`: queue length plus weight of the
not-yet-visited ids. -/
def bfsB (g : Graph) (queue visited : List String) : Nat :=
  queue.length + ((allNodesF g) \ visited.toFinset).sum (fun x => 1 + (nbrs g x).length)

/-- Termination measure for `asplBfs`. -/
def asplB (g : Graph) (queue visited : List String) : Nat :=
  queue.length + ((allNodesF g) \ visited.toFinset).card + 1

/-- The star graph of Scenario 3: hub `A` adjacent to `B` and `C`. -/
def starG : Graph := [("A", ["B", "C"]), ("B", ["A"]), ("C", ["A"])]

/-- The 3-cycle of Scenario 2. -/
def cycle3 : Graph := [("A", ["B", "C"]), ("B", ["A", "C"]), ("C", ["A", "B"])]

/-- The two records of Scenario 1. -/
def dataPrj : List Record := [⟨"n1", "n2", "10001"⟩, ⟨"n2", "n3", "10002"⟩]

/-- A path `A–B–C` plus an isolated entity `D`. -/
def lineG : Graph := [("A", ["B"]), ("B", ["A", "C"]), ("C", ["B"]), ("D", [])]

/-! ## Basic lemmas about removal -/

theorem remove_county_cons (c : String) (p : String × List String) (g : Graph) :
    remove_county c (p :: g) =
      if p.1 = c then remove_county c g
      else (p.1, p.2.filter (fun n => ¬ n = c)) :: remove_county c g := by
  by_cases h : p.1 = c <;> simp [remove_county, List.filter_cons, h]

theorem lookupKV_remove (c a : String) (g : Graph) :
    lookupKV a (remove_county c g) =
      if a = c then none
      else (lookupKV a g).map (fun l => l.filter (fun n => ¬ n = c)) := by
  induction g with
  | nil => by_cases h : a = c <;> simp [remove_county, lookupKV, h]
  | cons p g ih =>
    rw [remove_county_cons]
    by_cases hpc : p.1 = c
    · rw [if_pos hpc, ih]
      by_cases hac : a = c
      · simp [hac]
      · have hpa : ¬ p.1 = a := fun h => hac (by rw [← h, hpc])
        simp [lookupKV, hpa, hac]
    · by_cases hpa : p.1 = a
      · have hac : ¬ a = c := fun h => hpc (by rw [hpa, h])
        simp [lookupKV, hpa, hac]
      · simp [hpc, lookupKV, hpa, ih, decide_not]

theorem nbrs_remove (c a : String) (g : Graph) :
    nbrs (remove_county c g) a =
      if a = c then [] else (nbrs g a).filter (fun n => ¬ n = c) := by
  unfold nbrs
  rw [lookupKV_remove]
  by_cases h : a = c
  · simp [h]
  · rw [if_neg h, if_neg h]
    cases lookupKV a g <;> simp

theorem keys_remove (c : String) (g : Graph) : ¬ c ∈ keys (remove_county c g) := by
  intro h
  simp only [keys, remove_county, List.map_map, List.mem_map, Function.comp] at h
  obtain ⟨p, hp, hpc⟩ := h
  rw [List.mem_filter] at hp
  have := hp.2
  simp only [decide_eq_true_eq] at this
  exact this hpc

theorem remove_not_mem_val (c : String) (g : Graph) :
    ∀ p ∈ remove_county c g, ¬ c ∈ p.2 := by
  intro p hp
  simp only [remove_county, List.mem_map] at hp
  obtain ⟨q, _, rfl⟩ := hp
  simp [List.mem_filter]

theorem remove_absent_eq (g : Graph) (c : String) (hk : ¬ c ∈ keys g)
    (hv : ∀ p ∈ g, ¬ c ∈ p.2) : remove_county c g = g := by
  unfold remove_county
  have hf : g.filter (fun p => ¬ p.1 = c) = g := by
    rw [List.filter_eq_self]
    intro p hp
    simp only [decide_eq_true_eq]
    intro hpc
    exact hk (by simpa only [keys, List.mem_map] using ⟨p, hp, hpc⟩)
  rw [hf]
  have hmap : ∀ p ∈ g, (p.1, p.2.filter (fun n => ¬ n = c)) = p := by
    intro p hp
    have hfp : p.2.filter (fun n => ¬ n = c) = p.2 := by
      rw [List.filter_eq_self]
      intro n hn
      simp only [decide_eq_true_eq]
      intro hnc
      exact hv p hp (hnc ▸ hn)
    rw [hfp]
  rw [List.map_congr_left hmap]
  simp

/-! ## Lemmas about `pushNbr` and the node-graph builder -/

theorem lookupKV_pushNbr (k v a : String) (g : Graph) :
    lookupKV a (pushNbr k v g) =
      if k = a then some (nbrs g k ++ [v]) else lookupKV a g := by
  induction g with
  | nil => by_cases h : k = a <;> simp [pushNbr, lookupKV, nbrs, h]
  | cons p g ih =>
    obtain ⟨x, l⟩ := p
    by_cases hxk : x = k
    · subst hxk
      by_cases hxa : x = a <;> simp [pushNbr, lookupKV, nbrs, hxa]
    · have hkx : ¬ k = x := fun h => hxk h.symm
      by_cases hxa : x = a
      · subst hxa
        simp [pushNbr, lookupKV, hxk, hkx]
      · simp [pushNbr, lookupKV, hxk, hxa, ih, nbrs]

theorem nbrs_pushNbr (k v a : String) (g : Graph) :
    nbrs (pushNbr k v g) a = if k = a then nbrs g a ++ [v] else nbrs g a := by
  unfold nbrs
  rw [lookupKV_pushNbr]
  by_cases h : k = a
  · subst h; simp [nbrs]
  · simp [h]

theorem mem_nbrs_pushNbr (k v a b : String) (g : Graph) :
    b ∈ nbrs (pushNbr k v g) a ↔ b ∈ nbrs g a ∨ (k = a ∧ v = b) := by
  rw [nbrs_pushNbr]
  by_cases h : k = a <;> simp [h, eq_comm]

theorem count_pushNbr (k v a b : String) (g : Graph) :
    (nbrs (pushNbr k v g) a).count b =
      (nbrs g a).count b + (if k = a ∧ v = b then 1 else 0) := by
  rw [nbrs_pushNbr]
  by_cases h : k = a
  · by_cases hv : v = b
    · simp [h, hv, List.count_append]
    · have hbv : ¬ b = v := fun hb => hv hb.symm
      simp [h, hv, List.count_append, List.count_cons, hbv]
  · simp [h]

theorem countSymm_step (u v : String) (g : Graph) (h : CountSymm g) :
    CountSymm (pushNbr v u (pushNbr u v g)) := by
  intro a b
  rw [count_pushNbr, count_pushNbr, count_pushNbr, count_pushNbr, h a b]
  have e1 : (if v = a ∧ u = b then 1 else 0) = (if u = b ∧ v = a then 1 else 0) := by
    by_cases hh : v = a ∧ u = b
    · rw [if_pos hh, if_pos ⟨hh.2, hh.1⟩]
    · rw [if_neg hh, if_neg (fun hc => hh ⟨hc.2, hc.1⟩)]
  have e2 : (if u = a ∧ v = b then 1 else 0) = (if v = b ∧ u = a then 1 else 0) := by
    by_cases hh : u = a ∧ v = b
    · rw [if_pos hh, if_pos ⟨hh.2, hh.1⟩]
    · rw [if_neg hh, if_neg (fun hc => hh ⟨hc.2, hc.1⟩)]
  rw [e1, e2]
  exact Nat.add_right_comm _ _ _

theorem countSymm_build_aux (data : List Record) :
    ∀ g : Graph, CountSymm g →
      CountSymm (data.foldl
        (fun g r => pushNbr r.to_node r.from_node (pushNbr r.from_node r.to_node g)) g) := by
  induction data with
  | nil => intro g h; exact h
  | cons r data ih =>
    intro g h
    exact ih _ (countSymm_step r.from_node r.to_node g h)

theorem countSymm_build_node (data : List Record) : CountSymm (build_node_adjacency data) :=
  countSymm_build_aux data [] (fun a b => by simp [nbrs, lookupKV])

theorem symmGraph_of_countSymm (g : Graph) (h : CountSymm g) : SymmGraph g := by
  have key : ∀ a b : String, a ∈ nbrs g b → b ∈ nbrs g a := by
    intro a b hm
    by_contra hn
    have h0 : (nbrs g a).count b = 0 := List.count_eq_zero.2 hn
    rw [h a b] at h0
    exact (List.count_eq_zero.1 h0) hm
  exact fun a b => ⟨key a b, key b a⟩

theorem keys_pushNbr (k v : String) (g : Graph) :
    keys (pushNbr k v g) = if k ∈ keys g then keys g else keys g ++ [k] := by
  induction g with
  | nil => simp [pushNbr, keys]
  | cons p g ih =>
    obtain ⟨x, l⟩ := p
    by_cases hxk : x = k
    · subst hxk; simp [pushNbr, keys]
    · have hkx : ¬ k = x := fun h => hxk h.symm
      have hpush : pushNbr k v ((x, l) :: g) = (x, l) :: pushNbr k v g := by
        simp [pushNbr, hxk]
      rw [hpush]
      have hkeys : keys ((x, l) :: pushNbr k v g) = x :: keys (pushNbr k v g) := rfl
      have hkeys2 : keys ((x, l) :: g) = x :: keys g := rfl
      rw [hkeys, hkeys2, ih]
      by_cases hk : k ∈ keys g
      · rw [if_pos hk, if_pos (List.mem_cons_of_mem x hk)]
      · rw [if_neg hk, if_neg (by simp [hkx, hk])]
        rfl

theorem nodupKeys_pushNbr (k v : String) (g : Graph) (h : NodupKeysP g) :
    NodupKeysP (pushNbr k v g) := by
  unfold NodupKeysP at *
  rw [keys_pushNbr]
  by_cases hk : k ∈ keys g
  · simpa [hk] using h
  · simp only [hk, if_false]
    rw [List.nodup_append]
    exact ⟨h, List.nodup_singleton k, by simpa using hk⟩

theorem nodupKeys_build_aux (data : List Record) :
    ∀ g : Graph, NodupKeysP g →
      NodupKeysP (data.foldl
        (fun g r => pushNbr r.to_node r.from_node (pushNbr r.from_node r.to_node g)) g) := by
  induction data with
  | nil => intro g h; exact h
  | cons r data ih =>
    intro g h
    exact ih _ (nodupKeys_pushNbr _ _ _ (nodupKeys_pushNbr _ _ _ h))

theorem nodupKeys_build_node (data : List Record) : NodupKeysP (build_node_adjacency data) :=
  nodupKeys_build_aux data [] (by simp [NodupKeysP, keys])

theorem lookupKV_eq_some_of_mem {β : Type} (g : List (String × β)) (k : String) (v : β)
    (hnd : (g.map Prod.fst).Nodup) (hm : (k, v) ∈ g) : lookupKV k g = some v := by
  induction g with
  | nil => cases hm
  | cons p g ih =>
    rcases List.mem_cons.1 hm with h | h
    · rw [← h]
      simp [lookupKV]
    · obtain ⟨x, l⟩ := p
      have hx : ¬ x = k := by
        intro hxk
        apply (List.nodup_cons.1 hnd).1
        rw [hxk]
        exact List.mem_map.2 ⟨(k, v), h, rfl⟩
      simp only [lookupKV, if_neg hx]
      exact ih (List.nodup_cons.1 hnd).2 h

theorem mem_of_lookupKV_eq_some {β : Type} (g : List (String × β)) (k : String) (v : β)
    (h : lookupKV k g = some v) : (k, v) ∈ g := by
  induction g with
  | nil => simp [lookupKV] at h
  | cons p g ih =>
    obtain ⟨x, l⟩ := p
    by_cases hx : x = k
    · subst hx
      have hl : lookupKV x ((x, l) :: g) = some l := by simp [lookupKV]
      rw [hl] at h
      injection h with h2
      subst h2
      exact List.mem_cons_self _ _
    · simp only [lookupKV, if_neg hx] at h
      exact List.mem_cons_of_mem _ (ih h)

theorem symmGraph_of_symmOn (g : Graph) (hs : symmOn g) :
    SymmGraph g := by
  have key : ∀ a b : String, a ∈ nbrs g b → b ∈ nbrs g a := by
    intro a b hm
    cases hb : lookupKV b g with
    | none => rw [nbrs, hb] at hm; cases hm
    | some l =>
      rw [nbrs, hb] at hm
      exact hs (b, l) (mem_of_lookupKV_eq_some _ _ _ hb) a hm
  exact fun a b => ⟨key a b, key b a⟩

/-! ## Lemmas about the county projection -/

theorem nbrs_projectEntry (n2c : List (String × String)) (c1 : String) (l : List String) :
    ∀ (acc : Graph) (x b : String),
      b ∈ nbrs (projectEntry n2c c1 acc l) x ↔
        b ∈ nbrs acc x ∨ (x = c1 ∧ ∃ m ∈ l, lookupKV m n2c = some b ∧ ¬ c1 = b) := by
  induction l with
  | nil => intro acc x b; simp [projectEntry]
  | cons n ns ih =>
    intro acc x b
    unfold projectEntry at ih ⊢
    simp only [List.foldl_cons]
    cases hn : lookupKV n n2c with
    | none =>
      dsimp only
      rw [ih]
      constructor
      · rintro (hm | ⟨rfl, m, hm, hml, hne⟩)
        · exact Or.inl hm
        · exact Or.inr ⟨rfl, m, List.mem_cons_of_mem n hm, hml, hne⟩
      · rintro (hm | ⟨rfl, m, hm, hml, hne⟩)
        · exact Or.inl hm
        · rcases List.mem_cons.1 hm with rfl | hm
          · rw [hn] at hml; cases hml
          · exact Or.inr ⟨rfl, m, hm, hml, hne⟩
    | some c2 =>
      dsimp only
      by_cases hc : c1 = c2
      · rw [if_pos hc, ih]
        constructor
        · rintro (hm | ⟨rfl, m, hm, hml, hne⟩)
          · exact Or.inl hm
          · exact Or.inr ⟨rfl, m, List.mem_cons_of_mem n hm, hml, hne⟩
        · rintro (hm | ⟨rfl, m, hm, hml, hne⟩)
          · exact Or.inl hm
          · rcases List.mem_cons.1 hm with rfl | hm
            · rw [hn] at hml
              injection hml with hml
              exact absurd (hc.trans hml) hne
            · exact Or.inr ⟨rfl, m, hm, hml, hne⟩
      · rw [if_neg hc, ih]
        constructor
        · rintro (hm | ⟨rfl, m, hm, hml, hne⟩)
          · rcases (mem_nbrs_pushNbr _ _ _ _ _).1 hm with hm | ⟨rfl, rfl⟩
            · exact Or.inl hm
            · exact Or.inr ⟨rfl, n, List.mem_cons_self _ _, hn, hc⟩
          · exact Or.inr ⟨rfl, m, List.mem_cons_of_mem n hm, hml, hne⟩
        · rintro (hm | ⟨rfl, m, hm, hml, hne⟩)
          · exact Or.inl ((mem_nbrs_pushNbr _ _ _ _ _).2 (Or.inl hm))
          · rcases List.mem_cons.1 hm with rfl | hm
            · rw [hn] at hml
              injection hml with hml
              exact Or.inl ((mem_nbrs_pushNbr _ _ _ _ _).2 (Or.inr ⟨rfl, hml⟩))
            · exact Or.inr ⟨rfl, m, hm, hml, hne⟩

theorem nbrs_projectAll_aux (n2c : List (String × String)) :
    ∀ (l : Graph) (acc : Graph) (x b : String),
      b ∈ nbrs (l.foldl (fun acc p =>
          match lookupKV p.1 n2c with
          | none => acc
          | some c1 => projectEntry n2c c1 acc p.2) acc) x ↔
        b ∈ nbrs acc x ∨
          ∃ p ∈ l, lookupKV p.1 n2c = some x ∧
            ∃ m ∈ p.2, lookupKV m n2c = some b ∧ ¬ x = b := by
  intro l
  induction l with
  | nil => intro acc x b; simp
  | cons p l ih =>
    intro acc x b
    simp only [List.foldl_cons]
    cases hp : lookupKV p.1 n2c with
    | none =>
      rw [ih]
      constructor
      · rintro (hm | ⟨q, hq, hqx, rest⟩)
        · exact Or.inl hm
        · exact Or.inr ⟨q, List.mem_cons_of_mem p hq, hqx, rest⟩
      · rintro (hm | ⟨q, hq, hqx, rest⟩)
        · exact Or.inl hm
        · rcases List.mem_cons.1 hq with rfl | hq
          · rw [hp] at hqx; cases hqx
          · exact Or.inr ⟨q, hq, hqx, rest⟩
    | some c1 =>
      rw [ih, nbrs_projectEntry]
      constructor
      · rintro ((hm | ⟨rfl, m, hm, hml, hne⟩) | ⟨q, hq, hqx, rest⟩)
        · exact Or.inl hm
        · exact Or.inr ⟨p, List.mem_cons_self _ _, hp, m, hm, hml, hne⟩
        · exact Or.inr ⟨q, List.mem_cons_of_mem p hq, hqx, rest⟩
      · rintro (hm | ⟨q, hq, hqx, rest⟩)
        · exact Or.inl (Or.inl hm)
        · rcases List.mem_cons.1 hq with rfl | hq
          · rw [hp] at hqx
            injection hqx with hqx
            subst hqx
            exact Or.inl (Or.inr ⟨rfl, rest⟩)
          · exact Or.inr ⟨q, hq, hqx, rest⟩

theorem nbrs_projectAll (n2c : List (String × String)) (na : Graph) (x b : String) :
    b ∈ nbrs (projectAll n2c na) x ↔
      ∃ p ∈ na, lookupKV p.1 n2c = some x ∧
        ∃ m ∈ p.2, lookupKV m n2c = some b ∧ ¬ x = b := by
  unfold projectAll
  rw [nbrs_projectAll_aux]
  simp [nbrs, lookupKV]

theorem lookupKV_normalizeG (g : Graph) (a : String) :
    lookupKV a (normalizeG g) =
      (lookupKV a g).map
        (fun l => (List.insertionSort (fun a b : String => a ≤ b) l).dedup) := by
  induction g with
  | nil => simp [normalizeG, lookupKV]
  | cons p g ih =>
    by_cases h : p.1 = a
    · simp [normalizeG, lookupKV, h]
    · simp only [normalizeG, List.map_cons, lookupKV, if_neg h]
      simpa [normalizeG] using ih

theorem mem_nbrs_normalizeG (g : Graph) (a b : String) :
    b ∈ nbrs (normalizeG g) a ↔ b ∈ nbrs g a := by
  unfold nbrs
  rw [lookupKV_normalizeG]
  cases lookupKV a g with
  | none => simp
  | some l => simp [List.mem_dedup, List.mem_insertionSort]

theorem symm_build_county (data : List Record) :
    SymmGraph (build_county_adjacency data (build_node_adjacency data)) := by
  have hns : SymmGraph (build_node_adjacency data) :=
    symmGraph_of_countSymm _ (countSymm_build_node data)
  have hnd : NodupKeysP (build_node_adjacency data) := nodupKeys_build_node data
  have flip : ∀ x b : String,
      (∃ p ∈ build_node_adjacency data, lookupKV p.1 (nodeToCounty data) = some x ∧
        ∃ m ∈ p.2, lookupKV m (nodeToCounty data) = some b ∧ ¬ x = b) →
      (∃ p ∈ build_node_adjacency data, lookupKV p.1 (nodeToCounty data) = some b ∧
        ∃ m ∈ p.2, lookupKV m (nodeToCounty data) = some x ∧ ¬ b = x) := by
    rintro x b ⟨p, hp, hpx, m, hm, hmb, hne⟩
    have h1 : lookupKV p.1 (build_node_adjacency data) = some p.2 :=
      lookupKV_eq_some_of_mem _ _ _ hnd hp
    have hmn : m ∈ nbrs (build_node_adjacency data) p.1 := by
      rw [nbrs, h1]; exact hm
    have hrev : p.1 ∈ nbrs (build_node_adjacency data) m := (hns p.1 m).2 hmn
    obtain ⟨l2, hl2⟩ : ∃ l2, lookupKV m (build_node_adjacency data) = some l2 := by
      cases hh : lookupKV m (build_node_adjacency data) with
      | none => rw [nbrs, hh] at hrev; cases hrev
      | some l2 => exact ⟨l2, rfl⟩
    have hrev2 : p.1 ∈ l2 := by rw [nbrs, hl2] at hrev; exact hrev
    exact ⟨(m, l2), mem_of_lookupKV_eq_some _ _ _ hl2, hmb, p.1, hrev2, hpx,
      fun h => hne h.symm⟩
  intro a b
  unfold build_county_adjacency
  rw [mem_nbrs_normalizeG, mem_nbrs_normalizeG, nbrs_projectAll, nbrs_projectAll]
  exact ⟨flip b a, flip a b⟩

/-! ## Removal preserves symmetry -/

theorem count_filter_of_pos (p : String → Bool) (l : List String) (b : String)
    (h : p b = true) : (l.filter p).count b = l.count b := by
  induction l with
  | nil => rfl
  | cons x l ih =>
    rw [List.filter_cons]
    by_cases hx : p x = true
    · rw [if_pos hx, List.count_cons, List.count_cons, ih]
    · rw [if_neg hx, ih, List.count_cons]
      have hbx : ¬ b = x := fun hb => hx (hb ▸ h)
      have hxb : ¬ x = b := fun h2 => hbx h2.symm
      simp [hbx, hxb]

theorem count_filter_ne (l : List String) (b c : String) (h : ¬ b = c) :
    (l.filter (fun n => ¬ n = c)).count b = l.count b :=
  count_filter_of_pos _ l b (by simp [h])

theorem countSymm_remove (g : Graph) (c : String) (h : CountSymm g) :
    CountSymm (remove_county c g) := by
  intro a b
  rw [nbrs_remove, nbrs_remove]
  by_cases ha : a = c <;> by_cases hb : b = c
  · simp [ha, hb]
  · rw [if_pos ha, if_neg hb]
    have hnm : ¬ a ∈ (nbrs g b).filter (fun n => ¬ n = c) := by
      intro hmem
      rw [List.mem_filter] at hmem
      have := hmem.2
      simp only [decide_eq_true_eq] at this
      exact this (by rw [ha])
    rw [List.count_nil, List.count_eq_zero.2 hnm]
  · rw [if_neg ha, if_pos hb]
    have hnm : ¬ b ∈ (nbrs g a).filter (fun n => ¬ n = c) := by
      intro hmem
      rw [List.mem_filter] at hmem
      have := hmem.2
      simp only [decide_eq_true_eq] at this
      exact this (by rw [hb])
    rw [List.count_nil, List.count_eq_zero.2 hnm]
  · rw [if_neg ha, if_neg hb, count_filter_ne _ _ _ hb, count_filter_ne _ _ _ ha]
    exact h a b

theorem symmGraph_remove (g : Graph) (c : String) (h : SymmGraph g) :
    SymmGraph (remove_county c g) := by
  intro a b
  rw [nbrs_remove, nbrs_remove]
  by_cases ha : a = c <;> by_cases hb : b = c
  · simp [ha, hb]
  · rw [if_pos ha, if_neg hb]
    simp only [List.mem_filter, decide_eq_true_eq, List.not_mem_nil, iff_false]
    rintro ⟨-, hac⟩
    exact hac ha
  · rw [if_neg ha, if_pos hb]
    simp only [List.mem_filter, decide_eq_true_eq, List.not_mem_nil, false_iff]
    rintro ⟨-, hbc⟩
    exact hbc hb
  · rw [if_neg ha, if_neg hb]
    simp only [List.mem_filter, decide_eq_true_eq]
    constructor
    · rintro ⟨hm, hac⟩
      exact ⟨(h a b).1 hm, hb⟩
    · rintro ⟨hm, hbc⟩
      exact ⟨(h a b).2 hm, ha⟩

/-! ## Claim C2 -/

/-- Claim C2: every adjacency graph the program produces is
undirected-symmetric: node graphs from `build_node_adjacency` are
multiset-symmetric (equal occurrence counts from both ends), county graphs
from `build_county_adjacency` are set-symmetric, and `remove_county`
preserves both forms of symmetry. -/
theorem claim_C2_symmetry :
    (∀ data : List Record, CountSymm (build_node_adjacency data)) ∧
    (∀ data : List Record, SymmGraph (build_county_adjacency data (build_node_adjacency data))) ∧
    (∀ (g : Graph) (c : String), CountSymm g → CountSymm (remove_county c g)) ∧
    (∀ (g : Graph) (c : String), SymmGraph g → SymmGraph (remove_county c g)) :=
  ⟨countSymm_build_node, symm_build_county, countSymm_remove, symmGraph_remove⟩

/-- Witness for C2: the Scenario-1 county graph is symmetric, and removal
of `"10001"` from it preserves symmetry. -/
theorem claim_C2_witness :
    SymmGraph (remove_county "10001"
      (build_county_adjacency dataPrj (build_node_adjacency dataPrj))) :=
  claim_C2_symmetry.2.2.2 _ "10001" (claim_C2_symmetry.2.1 dataPrj)

/-! ## Claims C3, C4, C5, C8 -/

/-- Claim C3: for every adjacency graph `g` and id `c`, `remove_county c g`
contains `c` neither as a key nor inside any neighbor collection, and every
other entity's neighbor collection is no longer than it was in `g`. -/
theorem claim_C3_removal_correct (g : Graph) (c e : String) (he : ¬ e = c) :
    ¬ c ∈ keys (remove_county c g) ∧
    (∀ p ∈ remove_county c g, ¬ c ∈ p.2) ∧
    (nbrs (remove_county c g) e).length ≤ (nbrs g e).length := by
  refine ⟨keys_remove c g, remove_not_mem_val c g, ?_⟩
  rw [nbrs_remove, if_neg he]
  exact List.length_filter_le _ _

/-- Witness for C3 at the star graph, removing the hub and checking `B`. -/
theorem claim_C3_witness :
    ¬ ("B" : String) = "A" ∧
    (¬ "A" ∈ keys (remove_county "A" starG) ∧
      (∀ p ∈ remove_county "A" starG, ¬ "A" ∈ p.2) ∧
      (nbrs (remove_county "A" starG) "B").length ≤ (nbrs starG "B").length) :=
  ⟨by decide, claim_C3_removal_correct starG "A" "B" (by decide)⟩

/-- Claim C4: removing an id that occurs nowhere in the graph (neither as a
key nor as a neighbor) is a no-op returning a graph equal to the input. -/
theorem claim_C4_remove_absent_noop (g : Graph) (c : String) (h : ¬ presentIn c g) :
    remove_county c g = g :=
  remove_absent_eq g c (fun hc => h (Or.inl hc)) (fun p hp hc => h (Or.inr ⟨p, hp, hc⟩))

/-- Witness for C4: `"Z"` occurs nowhere in the star graph and its removal
returns the graph unchanged. -/
theorem claim_C4_witness :
    ¬ presentIn "Z" starG ∧ remove_county "Z" starG = starG :=
  ⟨by decide, claim_C4_remove_absent_noop starG "Z" (by decide)⟩

/-- Claim C5: `remove_county` is idempotent. -/
theorem claim_C5_remove_idempotent (g : Graph) (c : String) :
    remove_county c (remove_county c g) = remove_county c g :=
  remove_absent_eq _ c (keys_remove c g) (remove_not_mem_val c g)

/-- Claim C8: the two-record input (n1→n2 county 10001, n2→n3 county 10002)
yields exactly the county graph `{10001:[10002], 10002:[10001]}`, whose
largest connected component has size 2. -/
theorem claim_C8_projection_scenario :
    build_county_adjacency dataPrj (build_node_adjacency dataPrj) =
      [("10001", ["10002"]), ("10002", ["10001"])] ∧
    largest_connected_component
      (build_county_adjacency dataPrj (build_node_adjacency dataPrj)) = 2 := by
  exact ⟨by decide, by decide⟩

/-! ## Claim C7 -/

/-- Claim C7: `betweenness_centrality` returns exactly the pairs
`(e, largest_connected_component (remove_county e g))` over the entities of
`g`, sorted ascending by component size; on the 3-cycle every entity maps
to remaining-largest-component size 2. -/
theorem claim_C7_betweenness :
    (∀ g : Graph,
      (betweenness_centrality g).Perm
        ((keys g).map (fun e => (e, largest_connected_component (remove_county e g)))) ∧
      List.Sorted (fun a b : String × Nat => a.2 ≤ b.2) (betweenness_centrality g)) ∧
    betweenness_centrality cycle3 = [("A", 2), ("B", 2), ("C", 2)] := by
  refine ⟨fun g => ⟨List.perm_insertionSort _ _, ?_⟩, by decide⟩
  haveI : IsTotal (String × Nat) (fun a b => a.2 ≤ b.2) := ⟨fun a b => Nat.le_total a.2 b.2⟩
  haveI : IsTrans (String × Nat) (fun a b => a.2 ≤ b.2) := ⟨fun a b c => Nat.le_trans⟩
  exact List.sorted_insertionSort _ _

/-! ## Lemmas about `allNodesF` -/

theorem allNodesF_cons (p : String × List String) (g : Graph) :
    allNodesF (p :: g) = insert p.1 (p.2.toFinset ∪ allNodesF g) := rfl

theorem key_mem_allNodesF (g : Graph) (p : String × List String) (hp : p ∈ g) :
    p.1 ∈ allNodesF g := by
  induction g with
  | nil => cases hp
  | cons q g ih =>
    rw [allNodesF_cons]
    rcases List.mem_cons.1 hp with rfl | hp
    · exact Finset.mem_insert_self _ _
    · exact Finset.mem_insert_of_mem (Finset.mem_union_right _ (ih hp))

theorem val_mem_allNodesF (g : Graph) (p : String × List String) (hp : p ∈ g)
    (x : String) (hx : x ∈ p.2) : x ∈ allNodesF g := by
  induction g with
  | nil => cases hp
  | cons q g ih =>
    rw [allNodesF_cons]
    rcases List.mem_cons.1 hp with rfl | hp
    · exact Finset.mem_insert_of_mem (Finset.mem_union_left _ (List.mem_toFinset.2 hx))
    · exact Finset.mem_insert_of_mem (Finset.mem_union_right _ (ih hp))

theorem nbrs_subset_allNodesF (g : Graph) (a b : String) (h : b ∈ nbrs g a) :
    b ∈ allNodesF g := by
  unfold nbrs at h
  cases hl : lookupKV a g with
  | none => rw [hl] at h; cases h
  | some l =>
    rw [hl] at h
    exact val_mem_allNodesF g (a, l) (mem_of_lookupKV_eq_some _ _ _ hl) b h

theorem nbrs_of_not_mem_allNodesF (g : Graph) (a : String) (h : ¬ a ∈ allNodesF g) :
    nbrs g a = [] := by
  unfold nbrs
  cases hl : lookupKV a g with
  | none => rfl
  | some l =>
    exact absurd (key_mem_allNodesF g (a, l) (mem_of_lookupKV_eq_some _ _ _ hl)) h

theorem lookupKV_append_isSome {β : Type} (a : String) (l1 l2 : List (String × β))
    (h : ¬ lookupKV a l2 = none) : ¬ lookupKV a (l1 ++ l2) = none := by
  induction l1 with
  | nil => simpa using h
  | cons p l1 ih =>
    obtain ⟨k, v⟩ := p
    by_cases hk : k = a
    · simp [lookupKV, hk]
    · simpa [lookupKV, hk] using ih

/-! ## The ASPL BFS terminates without panic -/

theorem enqNbrs_spec (g : Graph) (d : Nat) :
    ∀ (ns queue visited : List String) (dist : List (String × Nat)),
      (∀ x ∈ ns, x ∈ allNodesF g) →
      ∃ (l : List String) (newE : List (String × Nat)),
        enqNbrs d ns queue visited dist =
          (queue ++ l, l.reverse ++ visited, newE ++ dist) ∧
        (∀ p ∈ newE, p.2 = d + 1) ∧
        (∀ x ∈ l, ¬ lookupKV x (newE ++ dist) = none) ∧
        ((allNodesF g) \ visited.toFinset).card =
          l.length + ((allNodesF g) \ (l.reverse ++ visited).toFinset).card := by
  intro ns
  induction ns with
  | nil =>
    intro queue visited dist _
    exact ⟨[], [], by simp [enqNbrs], by simp, by simp, by simp⟩
  | cons n ns ih =>
    intro queue visited dist hsub
    by_cases hn : n ∈ visited
    · obtain ⟨l, newE, heq, hval, hlook, hcard⟩ :=
        ih queue visited dist (fun x hx => hsub x (List.mem_cons_of_mem n hx))
      exact ⟨l, newE, by rw [enqNbrs, if_pos hn]; exact heq, hval, hlook, hcard⟩
    · obtain ⟨l, newE, heq, hval, hlook, hcard⟩ :=
        ih (queue ++ [n]) (n :: visited) ((n, d + 1) :: dist)
          (fun x hx => hsub x (List.mem_cons_of_mem n hx))
      refine ⟨n :: l, newE ++ [(n, d + 1)], ?_, ?_, ?_, ?_⟩
      · rw [enqNbrs, if_neg hn, heq]
        refine congrArg₂ _ ?_ (congrArg₂ _ ?_ ?_)
        · rw [List.append_assoc]; rfl
        · rw [List.reverse_cons, List.append_assoc]; rfl
        · rw [List.append_assoc]; rfl
      · intro p hp
        rcases List.mem_append.1 hp with hp | hp
        · exact hval p hp
        · rcases List.mem_singleton.1 hp with rfl
          rfl
      · intro x hx
        have hrw : (newE ++ [(n, d + 1)]) ++ dist = newE ++ ((n, d + 1) :: dist) := by
          rw [List.append_assoc]; rfl
        rw [hrw]
        rcases List.mem_cons.1 hx with rfl | hx
        · exact lookupKV_append_isSome _ _ _ (by simp [lookupKV])
        · exact hlook x hx
      · have hnA : n ∈ allNodesF g \ visited.toFinset := by
          rw [Finset.mem_sdiff]
          exact ⟨hsub n (List.mem_cons_self _ _), fun hc => hn (List.mem_toFinset.1 hc)⟩
        have hstep : ((allNodesF g) \ (n :: visited).toFinset).card + 1 =
            ((allNodesF g) \ visited.toFinset).card := by
          rw [List.toFinset_cons, Finset.sdiff_insert,
            Finset.card_erase_of_mem hnA]
          have hpos : 0 < ((allNodesF g) \ visited.toFinset).card :=
            Finset.card_pos.2 ⟨n, hnA⟩
          omega
        have hrw : (n :: l).reverse ++ visited = l.reverse ++ (n :: visited) := by
          rw [List.reverse_cons, List.append_assoc]; rfl
        rw [hrw, ← hstep, List.length_cons]
        omega

theorem asplBfs_spec (g : Graph) :
    ∀ (fuel : Nat) (queue visited : List String) (dist : List (String × Nat)),
      asplB g queue visited ≤ fuel →
      (∀ x ∈ queue, ¬ lookupKV x dist = none) →
      ∃ extra, asplBfs g fuel queue visited dist = some (extra ++ dist) ∧
        ∀ p ∈ extra, 1 ≤ p.2 := by
  intro fuel
  induction fuel with
  | zero =>
    intro queue visited dist hB _
    exact absurd hB (by simp [asplB])
  | succ fuel ih =>
    intro queue visited dist hB hq
    cases queue with
    | nil => exact ⟨[], rfl, by simp⟩
    | cons current rest =>
      cases hcur : lookupKV current dist with
      | none => exact absurd hcur (hq current (List.mem_cons_self _ _))
      | some d =>
        obtain ⟨l, newE, henq, hval, hlook, hcard⟩ :=
          enqNbrs_spec g d (nbrs g current) rest visited dist
            (fun x hx => nbrs_subset_allNodesF g current x hx)
        have hstep : asplBfs g (fuel + 1) (current :: rest) visited dist =
            asplBfs g fuel (rest ++ l) (l.reverse ++ visited) (newE ++ dist) := by
          rw [asplBfs, hcur]
          dsimp only
          rw [henq]
        have hB2 : asplB g (rest ++ l) (l.reverse ++ visited) ≤ fuel := by
          unfold asplB at hB ⊢
          rw [List.length_append, List.length_cons] at *
          omega
        have hq2 : ∀ x ∈ rest ++ l, ¬ lookupKV x (newE ++ dist) = none := by
          intro x hx
          rcases List.mem_append.1 hx with hx | hx
          · exact lookupKV_append_isSome _ _ _ (hq x (List.mem_cons_of_mem _ hx))
          · exact hlook x hx
        obtain ⟨extra2, hres, hv2⟩ := ih (rest ++ l) (l.reverse ++ visited) (newE ++ dist) hB2 hq2
        refine ⟨extra2 ++ newE, ?_, ?_⟩
        · rw [hstep, hres, List.append_assoc]
        · intro p hp
          rcases List.mem_append.1 hp with hp | hp
          · exact hv2 p hp
          · rw [hval p hp]
            omega

theorem aspl_bfs_from_spec (g : Graph) (start : String) :
    ∃ extra, aspl_bfs_from g start = some (extra ++ [(start, 0)]) ∧
      ∀ p ∈ extra, 1 ≤ p.2 := by
  apply asplBfs_spec
  · unfold asplB afuel
    have hle : ((allNodesF g) \ ([start] : List String).toFinset).card ≤ (allNodesF g).card :=
      Finset.card_le_card Finset.sdiff_subset
    simp only [List.length_cons, List.length_nil]
    omega
  · intro x hx
    rcases List.mem_singleton.1 hx with rfl
    simp [lookupKV]

theorem aspl_fold_spec (g : Graph) (L : List String) :
    ∀ t c : Nat,
      ∃ t2 c2, L.foldl (asplStep g) (some (t, c)) = some (t2, c2) ∧
        c ≤ c2 ∧ (c2 ≤ c → t2 = t) := by
  induction L with
  | nil => intro t c; exact ⟨t, c, rfl, le_refl c, fun _ => rfl⟩
  | cons e L ih =>
    intro t c
    obtain ⟨extra, he, hv⟩ := aspl_bfs_from_spec g e
    have hlen : (extra ++ [(e, 0)]).length = extra.length + 1 := by simp
    have hstep : asplStep g (some (t, c)) e =
        some (t + sumVals (extra ++ [(e, 0)]), c + extra.length) := by
      rw [asplStep]
      rw [he]
      dsimp only
      rw [if_neg (by omega), hlen]
      simp
    rw [List.foldl_cons, hstep]
    obtain ⟨t2, c2, hf, hle, himp⟩ := ih (t + sumVals (extra ++ [(e, 0)])) (c + extra.length)
    refine ⟨t2, c2, hf, by omega, ?_⟩
    intro hc2
    have hex : extra = [] := List.length_eq_zero.1 (by omega)
    have hsum : sumVals (extra ++ [(e, 0)]) = 0 := by
      rw [hex]; rfl
    have ht2 : t2 = t + sumVals (extra ++ [(e, 0)]) := himp (by omega)
    rw [ht2, hsum]
    omega

theorem aspl_totals_spec (g : Graph) :
    ∃ t c, aspl_totals g = some (t, c) ∧ (c = 0 → t = 0) := by
  obtain ⟨t2, c2, hf, _, himp⟩ := aspl_fold_spec g (keys g) 0 0
  exact ⟨t2, c2, hf, fun hc => himp (by omega)⟩

/-! ## Claims C1, C9, C10 -/

/-- Claim C10: `calculate_aspl` is total on every adjacency map: the BFS
distance lookup always succeeds (every node is inserted into `distances`
before being enqueued), the `distances.len() - 1` subtraction never
underflows (the map always holds the start entry), and the loop terminates;
so the embedded function, in which `none` models any panic, always returns
`some` result. -/
theorem claim_C10_aspl_total (g : Graph) : ∃ r, calculate_aspl g = some r := by
  obtain ⟨t, c, h, -⟩ := aspl_totals_spec g
  exact ⟨f64div t c, by rw [calculate_aspl, h]; rfl⟩

/-- Claim C1: whenever the accumulated reached-other-entity count is zero,
`calculate_aspl` (and `calculate_aspl_with_removal` on the reduced graph)
returns the NaN sentinel rather than failing. -/
theorem claim_C1_aspl_zero_pairs_nan (g : Graph) (c : String) :
    (∀ t, aspl_totals g = some (t, 0) → calculate_aspl g = some AsplResult.nan) ∧
    (∀ t, aspl_totals (remove_county c g) = some (t, 0) →
      calculate_aspl_with_removal g c = some AsplResult.nan) := by
  have key : ∀ (h : Graph) (t : Nat), aspl_totals h = some (t, 0) →
      calculate_aspl h = some AsplResult.nan := by
    intro h t ht
    obtain ⟨t2, c2, hf, himp⟩ := aspl_totals_spec h
    rw [ht] at hf
    have ht2 : t = t2 ∧ (0 : Nat) = c2 := by
      have := hf
      simp only [Option.some.injEq, Prod.mk.injEq] at this
      exact this
    have htz : t = 0 := by
      rw [ht2.1]
      exact himp ht2.2.symm
    rw [calculate_aspl, ht, htz]
    rfl
  exact ⟨key g, fun t ht => key _ t ht⟩

/-- Witness for C1: removing the hub `A` of the star graph isolates `B` and
`C`; the accumulated pair count is 0 and the removal ASPL is NaN. -/
theorem claim_C1_witness :
    aspl_totals (remove_county "A" starG) = some (0, 0) ∧
    calculate_aspl_with_removal starG "A" = some AsplResult.nan :=
  ⟨by decide, (claim_C1_aspl_zero_pairs_nan starG "A").2 0 (by decide)⟩

/-! ## Reachability-avoiding lemmas for the component BFS -/

theorem ra_root {g : Graph} {V : List String} {a b : String}
    (h : ReachAvoid g V a b) : ¬ a ∈ V := by
  cases h with
  | refl _ h => exact h
  | step _ _ _ h _ _ => exact h

theorem ra_last {g : Graph} {V : List String} {a b : String}
    (h : ReachAvoid g V a b) : ¬ b ∈ V := by
  induction h with
  | refl _ h => exact h
  | step _ _ _ _ _ _ ih => exact ih

theorem ra_mono {g : Graph} {V W : List String} (hVW : ∀ x, x ∈ V → x ∈ W)
    {a b : String} (h : ReachAvoid g W a b) : ReachAvoid g V a b := by
  induction h with
  | refl a h => exact .refl a (fun hx => h (hVW _ hx))
  | step a b c h hb _ ih => exact .step a b c (fun hx => h (hVW _ hx)) hb ih

theorem ra_split (g : Graph) (V : List String) (node : String) :
    ∀ {s x : String}, ReachAvoid g V s x →
      x = node ∨ ReachAvoid g (node :: V) s x ∨
        ∃ t, t ∈ nbrs g node ∧ ¬ t ∈ node :: V ∧ ReachAvoid g (node :: V) t x := by
  intro s x h
  induction h with
  | refl a ha =>
    by_cases han : a = node
    · exact Or.inl han
    · exact Or.inr (Or.inl (.refl a (fun hm => (List.mem_cons.1 hm).elim han ha)))
  | step a b c ha hb _ ih =>
    rcases ih with hc | h2 | ⟨t, ht, htV, h2⟩
    · exact Or.inl hc
    · by_cases han : a = node
      · subst han
        exact Or.inr (Or.inr ⟨b, hb, ra_root h2, h2⟩)
      · exact Or.inr (Or.inl (.step a b c (fun hm => (List.mem_cons.1 hm).elim han ha) hb h2))
    · exact Or.inr (Or.inr ⟨t, ht, htV, h2⟩)

theorem ra_snoc {g : Graph} {V : List String} {a b c : String}
    (h : ReachAvoid g V a b) (hc : c ∈ nbrs g b) (hcV : ¬ c ∈ V) :
    ReachAvoid g V a c := by
  induction h with
  | refl a ha => exact .step a c c ha hc (.refl c hcV)
  | step a b d ha hb _ ih => exact .step a b c ha hb (ih hc)

theorem ra_toReach {g : Graph} {V : List String} {a b : String}
    (h : ReachAvoid g V a b) : Reach g a b := by
  induction h with
  | refl a _ => exact Relation.ReflTransGen.refl
  | step a b c _ hb _ ih => exact Relation.ReflTransGen.head hb ih

theorem reach_symm (g : Graph) (hsym : SymmGraph g) {a b : String}
    (h : Reach g a b) : Reach g b a := by
  refine Relation.ReflTransGen.symmetric ?_ h
  intro x y hxy
  exact (hsym y x).1 hxy

theorem reach_toRA (g : Graph) (hsym : SymmGraph g) {V : List String}
    (hcl : Closed g V) {s x : String} (hs : ¬ s ∈ V) (h : Reach g s x) :
    ReachAvoid g V s x := by
  induction h with
  | refl => exact .refl s hs
  | tail _ hbc ih =>
    refine ra_snoc ih hbc ?_
    intro hcV
    exact ra_last ih (hcl _ _ hcV ((hsym _ _).1 hbc))

theorem reach_congr (g : Graph) (hsym : SymmGraph g) {e x : String}
    (h : Reach g e x) : ∀ y, Reach g x y ↔ Reach g e y :=
  fun _ => ⟨fun hx => h.trans hx, fun hx => (reach_symm g hsym h).trans hx⟩

/-! ## The component BFS measure decreases -/

theorem nbrs_cons (k : String) (v : List String) (g : Graph) (x : String) :
    nbrs ((k, v) :: g) x = if k = x then v else nbrs g x := by
  unfold nbrs
  have hlk : lookupKV x ((k, v) :: g) = if k = x then some v else lookupKV x g := rfl
  rw [hlk]
  by_cases h : k = x <;> simp [h]

theorem bfsB_skip (g : Graph) (node : String) (rest visited : List String) :
    bfsB g rest visited + 1 = bfsB g (node :: rest) visited := by
  unfold bfsB
  rw [List.length_cons]
  omega

theorem bfsB_visit (g : Graph) (node : String) (rest visited : List String)
    (hv : ¬ node ∈ visited) :
    bfsB g (rest ++ (nbrs g node).filter (fun x => ¬ x ∈ node :: visited))
        (node :: visited) + 1 ≤
      bfsB g (node :: rest) visited := by
  unfold bfsB
  have hflen : ((nbrs g node).filter (fun x => ¬ x ∈ node :: visited)).length ≤
      (nbrs g node).length := List.length_filter_le _ _
  rw [List.length_append, List.length_cons]
  by_cases hA : node ∈ allNodesF g
  · have hmem : node ∈ allNodesF g \ visited.toFinset :=
      Finset.mem_sdiff.2 ⟨hA, fun h => hv (List.mem_toFinset.1 h)⟩
    have hsd : allNodesF g \ (node :: visited).toFinset =
        (allNodesF g \ visited.toFinset).erase node := by
      rw [List.toFinset_cons, Finset.sdiff_insert]
    have hsum : ((allNodesF g \ visited.toFinset).erase node).sum
          (fun x => 1 + (nbrs g x).length) + (1 + (nbrs g node).length) =
        (allNodesF g \ visited.toFinset).sum (fun x => 1 + (nbrs g x).length) :=
      Finset.sum_erase_add _ _ hmem
    rw [hsd]
    omega
  · have hnil : nbrs g node = [] := nbrs_of_not_mem_allNodesF g node hA
    have hsd : allNodesF g \ (node :: visited).toFinset =
        allNodesF g \ visited.toFinset := by
      rw [List.toFinset_cons, Finset.sdiff_insert,
        Finset.erase_eq_of_not_mem (fun hm => hA (Finset.mem_sdiff.1 hm).1)]
    rw [hsd, hnil]
    simp only [List.filter_nil, List.length_nil]
    omega

theorem allNodesF_card_le (g : Graph) :
    (allNodesF g).card ≤ g.length + (g.map (fun p => p.2.length)).sum := by
  induction g with
  | nil => simp [allNodesF]
  | cons p g ih =>
    rw [allNodesF_cons]
    have h1 := Finset.card_insert_le p.1 (p.2.toFinset ∪ allNodesF g)
    have h2 := Finset.card_union_le p.2.toFinset (allNodesF g)
    have h3 := List.toFinset_card_le p.2
    simp only [List.map_cons, List.sum_cons, List.length_cons]
    omega

theorem sum_nbrs_le (g : Graph) :
    ((allNodesF g).sum (fun x => (nbrs g x).length)) ≤
      (g.map (fun p => p.2.length)).sum := by
  induction g with
  | nil => simp [allNodesF]
  | cons p g ih =>
    obtain ⟨k, v⟩ := p
    rw [allNodesF_cons]
    have hk : k ∈ insert k ((v : List String).toFinset ∪ allNodesF g) :=
      Finset.mem_insert_self _ _
    have hsplit : ((insert k (v.toFinset ∪ allNodesF g)).erase k).sum
          (fun x => (nbrs ((k, v) :: g) x).length) + (nbrs ((k, v) :: g) k).length =
        (insert k (v.toFinset ∪ allNodesF g)).sum
          (fun x => (nbrs ((k, v) :: g) x).length) :=
      Finset.sum_erase_add _ _ hk
    have hfk : (nbrs ((k, v) :: g) k).length = v.length := by
      rw [nbrs_cons, if_pos rfl]
    have hcong : ((insert k (v.toFinset ∪ allNodesF g)).erase k).sum
          (fun x => (nbrs ((k, v) :: g) x).length) =
        ((insert k (v.toFinset ∪ allNodesF g)).erase k).sum
          (fun x => (nbrs g x).length) := by
      apply Finset.sum_congr rfl
      intro x hx
      have hxk : ¬ k = x := fun h => (Finset.mem_erase.1 hx).1 h.symm
      rw [nbrs_cons, if_neg hxk]
    have hbound : ((insert k (v.toFinset ∪ allNodesF g)).erase k).sum
          (fun x => (nbrs g x).length) ≤
        (allNodesF g).sum (fun x => (nbrs g x).length) := by
      rw [← Finset.sum_filter_add_sum_filter_not
        ((insert k (v.toFinset ∪ allNodesF g)).erase k)
        (fun x => x ∈ allNodesF g) (fun x => (nbrs g x).length)]
      have hz : (((insert k (v.toFinset ∪ allNodesF g)).erase k).filter
            (fun x => ¬ x ∈ allNodesF g)).sum (fun x => (nbrs g x).length) = 0 := by
        apply Finset.sum_eq_zero
        intro x hx
        rw [nbrs_of_not_mem_allNodesF g x (Finset.mem_filter.1 hx).2]
        rfl
      have hsub : ((insert k (v.toFinset ∪ allNodesF g)).erase k).filter
            (fun x => x ∈ allNodesF g) ⊆ allNodesF g :=
        fun x hx => (Finset.mem_filter.1 hx).2
      have hmono : (((insert k (v.toFinset ∪ allNodesF g)).erase k).filter
            (fun x => x ∈ allNodesF g)).sum (fun x => (nbrs g x).length) ≤
          (allNodesF g).sum (fun x => (nbrs g x).length) :=
        Finset.sum_le_sum_of_subset hsub
      omega
    simp only [List.map_cons, List.sum_cons]
    omega

theorem bfsB_le_fuelFor (g : Graph) (s : String) (V : List String) :
    bfsB g [s] V ≤ fuelFor g := by
  unfold bfsB fuelFor
  have h1 : ((allNodesF g) \ V.toFinset).sum (fun x => 1 + (nbrs g x).length) ≤
      (allNodesF g).sum (fun x => 1 + (nbrs g x).length) :=
    Finset.sum_le_sum_of_subset Finset.sdiff_subset
  have h2 : (allNodesF g).sum (fun x => 1 + (nbrs g x).length) =
      (allNodesF g).card + (allNodesF g).sum (fun x => (nbrs g x).length) := by
    rw [Finset.sum_add_distrib, Finset.sum_const, smul_eq_mul, mul_one]
  have h3 := allNodesF_card_le g
  have h4 := sum_nbrs_le g
  simp only [List.length_cons, List.length_nil]
  omega

/-! ## The component BFS visits exactly the avoiding-reachable set -/

theorem bfs_main (g : Graph) :
    ∀ (fuel : Nat) (queue visited : List String) (sz : Nat),
      bfsB g queue visited ≤ fuel →
      ∃ new, bfsAux g fuel queue visited sz = (sz + new.length, new ++ visited) ∧
        new.Nodup ∧ (∀ x ∈ new, ¬ x ∈ visited) ∧
        (∀ x, (x ∈ new ∨ x ∈ visited) ↔
          (x ∈ visited ∨ ∃ s ∈ queue, ReachAvoid g visited s x)) := by
  intro fuel
  induction fuel with
  | zero =>
    intro queue visited sz hB
    have hq : queue = [] := by
      cases queue with
      | nil => rfl
      | cons a q =>
        exfalso
        unfold bfsB at hB
        rw [List.length_cons] at hB
        omega
    subst hq
    refine ⟨[], rfl, List.nodup_nil, by simp, ?_⟩
    intro x
    simp
  | succ fuel ih =>
    intro queue visited sz hB
    cases queue with
    | nil =>
      refine ⟨[], rfl, List.nodup_nil, by simp, ?_⟩
      intro x
      simp
    | cons node rest =>
      by_cases hv : node ∈ visited
      · have hstep : bfsAux g (fuel + 1) (node :: rest) visited sz =
            bfsAux g fuel rest visited sz := by
          simp only [bfsAux]
          rw [if_pos hv]
        have hB2 : bfsB g rest visited ≤ fuel := by
          have := bfsB_skip g node rest visited
          omega
        obtain ⟨new, heq, hnd, hdis, hset⟩ := ih rest visited sz hB2
        refine ⟨new, by rw [hstep, heq], hnd, hdis, ?_⟩
        intro x
        rw [hset x]
        constructor
        · rintro (hx | ⟨s, hs, hra⟩)
          · exact Or.inl hx
          · exact Or.inr ⟨s, List.mem_cons_of_mem _ hs, hra⟩
        · rintro (hx | ⟨s, hs, hra⟩)
          · exact Or.inl hx
          · rcases List.mem_cons.1 hs with rfl | hs
            · exact absurd hv (ra_root hra)
            · exact Or.inr ⟨s, hs, hra⟩
      · have hstep : bfsAux g (fuel + 1) (node :: rest) visited sz =
            bfsAux g fuel
              (rest ++ (nbrs g node).filter (fun x => ¬ x ∈ node :: visited))
              (node :: visited) (sz + 1) := by
          simp only [bfsAux]
          rw [if_neg hv]
        have hB2 : bfsB g
            (rest ++ (nbrs g node).filter (fun x => ¬ x ∈ node :: visited))
            (node :: visited) ≤ fuel := by
          have := bfsB_visit g node rest visited hv
          omega
        obtain ⟨new2, heq, hnd, hdis, hset⟩ := ih _ _ (sz + 1) hB2
        refine ⟨new2 ++ [node], ?_, ?_, ?_, ?_⟩
        · rw [hstep, heq]
          refine congrArg₂ Prod.mk ?_ ?_
          · rw [List.length_append, List.length_cons, List.length_nil]
            omega
          · rw [List.append_assoc]
            rfl
        · rw [List.nodup_append]
          refine ⟨hnd, List.nodup_singleton _, ?_⟩
          intro x hx hx2
          rcases List.mem_singleton.1 hx2 with rfl
          exact hdis x hx (List.mem_cons_self _ _)
        · intro x hx
          rcases List.mem_append.1 hx with hx | hx
          · exact fun hxv => hdis x hx (List.mem_cons_of_mem _ hxv)
          · rcases List.mem_singleton.1 hx with rfl
            exact hv
        · intro x
          have base := hset x
          have conv : (x ∈ new2 ∨ x ∈ node :: visited) →
              (x ∈ new2 ++ [node] ∨ x ∈ visited) := by
            rintro (h2 | h2)
            · exact Or.inl (List.mem_append.2 (Or.inl h2))
            · rcases List.mem_cons.1 h2 with rfl | h2
              · exact Or.inl (List.mem_append.2 (Or.inr (List.mem_singleton.2 rfl)))
              · exact Or.inr h2
          constructor
          · intro hx
            have hbase1 : x ∈ new2 ∨ x ∈ node :: visited := by
              rcases hx with hx | hx
              · rcases List.mem_append.1 hx with hx | hx
                · exact Or.inl hx
                · rcases List.mem_singleton.1 hx with rfl
                  exact Or.inr (List.mem_cons_self _ _)
              · exact Or.inr (List.mem_cons_of_mem _ hx)
            rcases base.1 hbase1 with hx2 | ⟨s, hs, hra⟩
            · rcases List.mem_cons.1 hx2 with rfl | hx2
              · exact Or.inr ⟨x, List.mem_cons_self _ _, .refl x hv⟩
              · exact Or.inl hx2
            · rcases List.mem_append.1 hs with hs | hs
              · exact Or.inr ⟨s, List.mem_cons_of_mem _ hs,
                  ra_mono (fun y hy => List.mem_cons_of_mem _ hy) hra⟩
              · rw [List.mem_filter] at hs
                exact Or.inr ⟨node, List.mem_cons_self _ _,
                  .step node s x hv hs.1
                    (ra_mono (fun y hy => List.mem_cons_of_mem _ hy) hra)⟩
          · intro hx
            rcases hx with hx | ⟨s, hs, hra⟩
            · exact Or.inr hx
            · rcases ra_split g visited node hra with rfl | hra2 | ⟨t, ht, htV, hra2⟩
              · exact Or.inl (List.mem_append.2 (Or.inr (List.mem_singleton.2 rfl)))
              · have hsne : ¬ s = node := by
                  intro h2
                  exact ra_root hra2 (h2 ▸ List.mem_cons_self node visited)
                have hs2 : s ∈ rest := by
                  rcases List.mem_cons.1 hs with h2 | h2
                  · exact absurd h2 hsne
                  · exact h2
                exact conv (base.2 (Or.inr ⟨s, List.mem_append.2 (Or.inl hs2), hra2⟩))
              · have htf : t ∈ (nbrs g node).filter
                    (fun y => ¬ y ∈ node :: visited) := by
                  rw [List.mem_filter]
                  exact ⟨ht, decide_eq_true htV⟩
                exact conv (base.2 (Or.inr ⟨t, List.mem_append.2 (Or.inr htf), hra2⟩))

theorem bfs_component_spec (g : Graph) (hsym : SymmGraph g) (V : List String)
    (s : String) (hcl : Closed g V) (hnd : V.Nodup) (hs : ¬ s ∈ V) :
    ∃ new, bfs_component_size s g V = (new.length, new ++ V) ∧ new.Nodup ∧
      (∀ x ∈ new, ¬ x ∈ V) ∧ (∀ x, x ∈ new ↔ Reach g s x) ∧
      Closed g (new ++ V) ∧ (new ++ V).Nodup := by
  obtain ⟨new, heq, hnd2, hdis, hset⟩ :=
    bfs_main g (fuelFor g) [s] V 0 (bfsB_le_fuelFor g s V)
  have hmem : ∀ x, x ∈ new ↔ Reach g s x := by
    intro x
    constructor
    · intro hx
      rcases (hset x).1 (Or.inl hx) with hx2 | ⟨s2, hs2, hra⟩
      · exact absurd hx2 (hdis x hx)
      · rcases List.mem_singleton.1 hs2 with rfl
        exact ra_toReach hra
    · intro hx
      have hra := reach_toRA g hsym hcl hs hx
      rcases (hset x).2 (Or.inr ⟨s, List.mem_singleton.2 rfl, hra⟩) with hx2 | hx2
      · exact hx2
      · exact absurd hx2 (ra_last hra)
  refine ⟨new, ?_, hnd2, hdis, hmem, ?_, ?_⟩
  · have h0 : bfs_component_size s g V = (0 + new.length, new ++ V) := heq
    rw [h0, Nat.zero_add]
  · intro a b ha hb
    rcases List.mem_append.1 ha with ha | ha
    · have h1 : Reach g s a := (hmem a).1 ha
      exact List.mem_append.2 (Or.inl ((hmem b).2 (h1.tail hb)))
    · exact List.mem_append.2 (Or.inr (hcl a b ha hb))
  · rw [List.nodup_append]
    exact ⟨hnd2, hnd, fun x hx hx2 => hdis x hx hx2⟩

/-! ## Fresh component sizes and the shared-visited scan -/

theorem nodup_length_eq (l1 l2 : List String) (h1 : l1.Nodup) (h2 : l2.Nodup)
    (h : ∀ x, x ∈ l1 ↔ x ∈ l2) : l1.length = l2.length :=
  ((List.perm_ext_iff_of_nodup h1 h2).2 h).length_eq

theorem freshSize_spec (g : Graph) (hsym : SymmGraph g) (e : String) :
    ∃ new : List String, freshSize g e = new.length ∧ new.Nodup ∧
      (∀ x, x ∈ new ↔ Reach g e x) := by
  obtain ⟨new, heq, hnd, _, hmem, _, _⟩ :=
    bfs_component_spec g hsym [] e (fun a b ha _ => absurd ha (List.not_mem_nil a))
      List.nodup_nil (List.not_mem_nil e)
  refine ⟨new, ?_, hnd, hmem⟩
  show (bfs_component_size e g []).1 = new.length
  rw [heq]

theorem freshSize_congr (g : Graph) (hsym : SymmGraph g) {e x : String}
    (h : Reach g e x) : freshSize g x = freshSize g e := by
  obtain ⟨n1, h1, hn1, hm1⟩ := freshSize_spec g hsym x
  obtain ⟨n2, h2, hn2, hm2⟩ := freshSize_spec g hsym e
  rw [h1, h2]
  apply nodup_length_eq n1 n2 hn1 hn2
  intro y
  rw [hm1 y, hm2 y]
  exact reach_congr g hsym h y

theorem nat_max_absorb (a b c : Nat) (h : b ≤ a) : max a (max b c) = max a c := by
  rcases Nat.le_total b c with h1 | h1
  · rw [Nat.max_eq_right h1]
  · rw [Nat.max_eq_left h1, Nat.max_eq_left h, Nat.max_eq_left (le_trans h1 h)]

theorem ite_gt_max (m n : Nat) : (if n > m then n else m) = max m n := by
  rcases Nat.lt_or_ge m n with h | h
  · rw [if_pos h, Nat.max_eq_right (Nat.le_of_lt h)]
  · rw [if_neg (Nat.not_lt.2 h), Nat.max_eq_left h]

theorem maxOf_cons (a : Nat) (l : List Nat) : maxOf (a :: l) = max a (maxOf l) := rfl

theorem maxOf_perm {l1 l2 : List Nat} (h : l1.Perm l2) : maxOf l1 = maxOf l2 := by
  induction h with
  | nil => rfl
  | cons a _ ih => rw [maxOf_cons, maxOf_cons, ih]
  | swap a b l =>
    rw [maxOf_cons, maxOf_cons, maxOf_cons, maxOf_cons,
      ← Nat.max_assoc, ← Nat.max_assoc, Nat.max_comm b a]
  | trans _ _ ih1 ih2 => exact ih1.trans ih2

theorem lccAux_cons (g : Graph) (node : String) (ks visited : List String) (m : Nat) :
    lccAux g (node :: ks) visited m =
      if node ∈ visited then lccAux g ks visited m
      else lccAux g ks (bfs_component_size node g visited).2
        (if (bfs_component_size node g visited).1 > m
          then (bfs_component_size node g visited).1 else m) := rfl

theorem lcc_scan (g : Graph) (hsym : SymmGraph g) :
    ∀ (K V : List String) (m : Nat), Closed g V → V.Nodup →
      (∀ e ∈ V, freshSize g e ≤ m) →
      lccAux g K V m = max m (maxOf (K.map (freshSize g))) := by
  intro K
  induction K with
  | nil =>
    intro V m _ _ _
    simp [lccAux, maxOf]
  | cons e K ih =>
    intro V m hcl hnd hV
    rw [lccAux_cons]
    by_cases he : e ∈ V
    · rw [if_pos he, ih V m hcl hnd hV, List.map_cons, maxOf_cons]
      exact (nat_max_absorb m (freshSize g e) _ (hV e he)).symm
    · rw [if_neg he]
      obtain ⟨new, heq, hnd2, hdis, hmem, hcl2, hnd3⟩ :=
        bfs_component_spec g hsym V e hcl hnd he
      have hfe : freshSize g e = new.length := by
        obtain ⟨new0, h0, hnd0, hm0⟩ := freshSize_spec g hsym e
        rw [h0]
        exact nodup_length_eq new0 new hnd0 hnd2 (fun x => (hm0 x).trans (hmem x).symm)
      rw [heq]
      dsimp only
      rw [ite_gt_max]
      have hV2 : ∀ x ∈ new ++ V, freshSize g x ≤ max m new.length := by
        intro x hx
        rcases List.mem_append.1 hx with hx | hx
        · have hcg : freshSize g x = freshSize g e :=
            freshSize_congr g hsym ((hmem x).1 hx)
          rw [hcg, hfe]
          exact Nat.le_max_right _ _
        · exact le_trans (hV x hx) (Nat.le_max_left _ _)
      rw [ih (new ++ V) (max m new.length) hcl2 hnd3 hV2,
        List.map_cons, maxOf_cons, hfe, Nat.max_assoc]

/-! ## Claim C6 -/

/-- Claim C6: on every adjacency graph (undirected, per the data model's
invariant), `largest_connected_component` equals the maximum over all
entities of the BFS component size computed from that entity with a fresh
visited set, and the shared-visited scan returns the same value for every
iteration order of the graph's keys. -/
theorem claim_C6_lcc_maximality (g : Graph) (hsym : SymmGraph g)
    (K : List String) (hK : K.Perm (keys g)) :
    largest_connected_component g = maxOf ((keys g).map (freshSize g)) ∧
    lccAux g K [] 0 = largest_connected_component g := by
  have hcl : Closed g [] := fun a b ha _ => absurd ha (List.not_mem_nil a)
  have h1 : ∀ K2 : List String, lccAux g K2 [] 0 = maxOf (K2.map (freshSize g)) := by
    intro K2
    rw [lcc_scan g hsym K2 [] 0 hcl List.nodup_nil (by intro e he; cases he)]
    exact Nat.max_eq_right (Nat.zero_le _)
  have h2 : largest_connected_component g = lccAux g (keys g) [] 0 := rfl
  refine ⟨by rw [h2, h1], ?_⟩
  rw [h1 K, h2, h1 (keys g)]
  exact maxOf_perm (hK.map (freshSize g))

/-- Witness for C6 at the path graph `A–B–C` with isolated `D`, iterating
the keys in the order `D, C, A, B`. -/
theorem claim_C6_witness :
    largest_connected_component lineG = maxOf ((keys lineG).map (freshSize lineG)) ∧
    lccAux lineG ["D", "C", "A", "B"] [] 0 = largest_connected_component lineG :=
  claim_C6_lcc_maximality lineG (symmGraph_of_symmOn lineG (by decide))
    ["D", "C", "A", "B"] (by decide)

/-- Claim C9: on the star graph `A–B`, `A–C`, `calculate_aspl` accumulates
total distance 8 over the three sources and pair count 6, returning `8/6`. -/
theorem claim_C9_aspl_star :
    aspl_totals starG = some (8, 6) ∧
    calculate_aspl starG = some (AsplResult.val ((8 : ℚ) / 6)) := by
  constructor
  · decide
  · rfl

end RailNet
